import Mathlib

/-!
Shallow embedding of `src/gates/random_access.rs` (RandomAccessGate) from
gear-tech/plonky2, together with proofs of the specified properties.

Modelling conventions:
* The base field `F` and the extension field at challenge points `K` are
  abstract Lean `Field`s; the canonical embedding of integers is `Nat.cast`.
* An extension-field element viewed through its base-field coefficient array
  (`from_basefield_array` / `to_basefield_array`) is modelled as a `List` of
  its `D` coefficients; subtraction of extension elements and scalar
  multiplication by a base element act coordinatewise on this array, so the
  evaluation functions manipulate the coefficient lists directly.
* A row assignment (`local_wires`) is a total function from slot numbers to
  field values; `local_constants` and `public_inputs_hash` are carried along
  as in the Rust `EvaluationVars` structures.
* `debug_assert!` failure in `run_once` is modelled by returning `none`;
  a successful run returns `some` of the ordered list of (wire, value) pairs
  written into `GeneratedValues`.
* The Rust `Field::inverse` is modelled by Lean field inverse `x⁻¹`
  (total, with `0⁻¹ = 0`); all uses below are at provably nonzero inputs.
-/

/-- A half-open range of wire slot numbers, `start..stop` (Rust `Range<usize>`). -/
structure WireRange where
  start : Nat
  stop : Nat
deriving DecidableEq, Repr

/-- A wire: (gate-row index, slot index), mirroring `iop::wire::Wire`. -/
structure Wire where
  gate : Nat
  input : Nat
deriving DecidableEq, Repr

/-- Rust `RandomAccessGate<F, D>`: the const generic `D` and the field `vec_size`
are both carried as data. -/
structure RandomAccessGate where
  vec_size : Nat
  D : Nat
deriving DecidableEq, Repr

namespace RandomAccessGate

/-- Slot of the access index (`wires_access_index`). -/
def wires_access_index (_g : RandomAccessGate) : Nat := 0

/-- Slots of the element to compare (`wires_element_to_compare`): `1..D+1`. -/
def wires_element_to_compare (g : RandomAccessGate) : WireRange :=
  ⟨1, g.D + 1⟩

/-- Slots of the `i`-th list item (`wires_list_item`). -/
def wires_list_item (g : RandomAccessGate) (i : Nat) : WireRange :=
  let start := (i + 1) * g.D + 1
  ⟨start, start + g.D⟩

/-- Rust `start_of_intermediate_wires`. -/
def start_of_intermediate_wires (g : RandomAccessGate) : Nat :=
  (g.vec_size + 1) * g.D + 1

/-- Rust `wire_equality_dummy_for_index`. -/
def wire_equality_dummy_for_index (g : RandomAccessGate) (i : Nat) : Nat :=
  g.start_of_intermediate_wires + i

/-- Rust `wire_index_matches_for_index`. -/
def wire_index_matches_for_index (g : RandomAccessGate) (i : Nat) : Nat :=
  g.start_of_intermediate_wires + g.vec_size + i

/-- Rust `num_wires`. -/
def num_wires (g : RandomAccessGate) : Nat :=
  g.wire_index_matches_for_index (g.vec_size - 1) + 1

/-- Rust `num_constants`. -/
def num_constants (_g : RandomAccessGate) : Nat := 0

/-- Rust `degree`. -/
def degree (_g : RandomAccessGate) : Nat := 2

/-- Rust `num_constraints`. -/
def num_constraints (g : RandomAccessGate) : Nat :=
  g.vec_size * (2 + g.D)

end RandomAccessGate

/-- The wires of a range, in order (`Range<usize>` as an iterator). -/
def WireRange.toList (r : WireRange) : List Nat :=
  (List.range (r.stop - r.start)).map (fun j => r.start + j)

/-- A target; only wire targets occur in this gate (`Target::wire`). -/
structure Target where
  gate : Nat
  input : Nat
deriving DecidableEq, Repr

/-- Rust `Target::wire(gate, input)`. -/
def Target.wire (gate input : Nat) : Target := ⟨gate, input⟩

/-- Rust `RandomAccessGenerator<F, D>`: the generator bound to one gate row. -/
structure RandomAccessGenerator where
  gate_index : Nat
  gate : RandomAccessGate
deriving DecidableEq, Repr

namespace RandomAccessGenerator

/-- Rust `RandomAccessGenerator::dependencies`: the access-index wire, the
element-to-compare wires, and every list-item wire, in the order the Rust
code pushes them. -/
def dependencies (gen : RandomAccessGenerator) : List Target :=
  let local_target := fun input => Target.wire gen.gate_index input
  let local_targets := fun (r : WireRange) => r.toList.map local_target
  [local_target gen.gate.wires_access_index]
    ++ local_targets gen.gate.wires_element_to_compare
    ++ (List.range gen.gate.vec_size).flatMap
        (fun i => local_targets (gen.gate.wires_list_item i))

/-- Rust `RandomAccessGenerator::run_once`.  `to_canonical` models
`Field::to_canonical_u64` composed with the `as usize` conversion; the
`debug_assert!(access_index < vec_size)` is the `none` branch.  The Rust
code's first computation of `index_matches_vals` is immediately shadowed by
the `replicate`/`insert` form, so only the latter appears.  `orig_vec` and
`to_insert` are read but unused, as in the source. -/
def run_once {F : Type} [Field F] (gen : RandomAccessGenerator)
    (to_canonical : F → Nat) (witness : Wire → F) : Option (List (Wire × F)) :=
  let local_wire := fun input => Wire.mk gen.gate_index input
  let get_local_wire := fun input => witness (local_wire input)
  let get_local_ext := fun (r : WireRange) => r.toList.map get_local_wire
  let vec_size := gen.gate.vec_size
  let _orig_vec := (List.range vec_size).map
    (fun i => get_local_ext (gen.gate.wires_list_item i))
  let _to_insert := get_local_ext gen.gate.wires_element_to_compare
  let access_index_f := get_local_wire gen.gate.wires_access_index
  let access_index := to_canonical access_index_f
  if access_index < vec_size then
    let equality_dummy_vals := (List.range vec_size).map (fun i =>
      if i = access_index then (1 : F)
      else ((i : F) - (access_index : F))⁻¹)
    let index_matches_vals :=
      (List.replicate (vec_size - 1) (0 : F)).insertIdx access_index 1
    some ((List.range vec_size).flatMap (fun i =>
      [(local_wire (gen.gate.wire_equality_dummy_for_index i),
          equality_dummy_vals.getD i 0),
       (local_wire (gen.gate.wire_index_matches_for_index i),
          index_matches_vals.getD i 0)]))
  else none

end RandomAccessGenerator

/-- The canonical value the generator assigns to `equality_dummy_i` when the
access index is `a`. -/
def canonical_equality_dummy {F : Type} [Field F] (a i : Nat) : F :=
  if i = a then 1 else ((i : F) - (a : F))⁻¹

/-- The canonical value the generator assigns to `index_matches_i` when the
access index is `a`. -/
def canonical_index_matches {F : Type} [Field F] (a i : Nat) : F :=
  if i = a then 1 else 0

/-- The ordered (wire, value) list the generator writes for access index `a`:
for each `i`, the `equality_dummy` wire then the `index_matches` wire. -/
def canonical_generated_values {F : Type} [Field F] (k : Nat)
    (g : RandomAccessGate) (a : Nat) : List (Wire × F) :=
  (List.range g.vec_size).flatMap (fun i =>
    [(⟨k, g.wire_equality_dummy_for_index i⟩, canonical_equality_dummy a i),
     (⟨k, g.wire_index_matches_for_index i⟩, canonical_index_matches a i)])

/-- The fully-filled row for access index `a`, list `lst` (item `i`,
coefficient `j`), and comparison element `cmp` (coefficient `j`), with the
derived wires filled by the generator's canonical rule.  Slots beyond the
gate's layout are irrelevant to evaluation. -/
def fullRow {F : Type} [Field F] (g : RandomAccessGate) (a : Nat)
    (lst : Nat → Nat → F) (cmp : Nat → F) : Nat → F := fun n =>
  if n = 0 then (a : F)
  else if n < g.D + 1 then cmp (n - 1)
  else if n < (g.vec_size + 1) * g.D + 1 then
    lst ((n - 1 - g.D) / g.D) ((n - 1 - g.D) % g.D)
  else if n < (g.vec_size + 1) * g.D + 1 + g.vec_size then
    canonical_equality_dummy a (n - ((g.vec_size + 1) * g.D + 1))
  else canonical_index_matches a (n - ((g.vec_size + 1) * g.D + 1 + g.vec_size))

/-- Rust `EvaluationVarsBase<F>`: base-field row data. -/
structure EvaluationVarsBase (F : Type) where
  local_constants : List F
  local_wires : Nat → F
  public_inputs_hash : List F

/-- Rust `EvaluationVars<F, D>`: extension-field row data; `K` stands for
`F::Extension`. -/
structure EvaluationVars (K : Type) where
  local_constants : List K
  local_wires : Nat → K
  public_inputs_hash : List K

/-- Rust `vars.get_local_ext(wire_range)`: read the `stop - start` wires of a range
in order, as the base-field coefficient array of an extension element. -/
def EvaluationVarsBase.get_local_ext {F : Type} (vars : EvaluationVarsBase F)
    (r : WireRange) : List F :=
  (List.range (r.stop - r.start)).map (fun j => vars.local_wires (r.start + j))

/-- Rust `vars.get_local_ext_algebra(wire_range)`: read the `stop - start`
extension-field wires of a range in order, as the coefficient array of an
extension-algebra element. -/
def EvaluationVars.get_local_ext_algebra {K : Type} (vars : EvaluationVars K)
    (r : WireRange) : List K :=
  (List.range (r.stop - r.start)).map (fun j => vars.local_wires (r.start + j))

namespace RandomAccessGate

/-- Rust `eval_unfiltered_base`: the constraint polynomials evaluated at base-field
row values.  Extension elements appear through their coefficient arrays, on
which subtraction and scalar multiplication act coordinatewise. -/
def eval_unfiltered_base {F : Type} [Field F] (g : RandomAccessGate)
    (vars : EvaluationVarsBase F) : List F :=
  let access_index := vars.local_wires g.wires_access_index
  let element_to_compare := vars.get_local_ext g.wires_element_to_compare
  (List.range g.vec_size).flatMap (fun i =>
    let cur_index : F := (i : F)
    let difference := cur_index - access_index
    let equality_dummy := vars.local_wires (g.wire_equality_dummy_for_index i)
    let index_matches := vars.local_wires (g.wire_index_matches_for_index i)
    [difference * equality_dummy - (1 - index_matches),
     index_matches * difference]
    ++ ((List.zipWith (fun x y => x - y)
          (vars.get_local_ext (g.wires_list_item i)) element_to_compare).map
        (fun x => x * index_matches)))

/-- Rust `eval_unfiltered`: the same constraint polynomials evaluated at
extension-field row values `K = F::Extension`; extension-algebra elements
appear through their coefficient arrays over `K`. -/
def eval_unfiltered {K : Type} [Field K] (g : RandomAccessGate)
    (vars : EvaluationVars K) : List K :=
  let access_index := vars.local_wires g.wires_access_index
  let element_to_compare := vars.get_local_ext_algebra g.wires_element_to_compare
  (List.range g.vec_size).flatMap (fun i =>
    let cur_index : K := (i : K)
    let difference := cur_index - access_index
    let equality_dummy := vars.local_wires (g.wire_equality_dummy_for_index i)
    let index_matches := vars.local_wires (g.wire_index_matches_for_index i)
    [difference * equality_dummy - (1 - index_matches),
     index_matches * difference]
    ++ ((List.zipWith (fun x y => x - y)
          (vars.get_local_ext_algebra (g.wires_list_item i)) element_to_compare).map
        (fun x => x * index_matches)))

end RandomAccessGate

/-- Embedding of a base-field row into the extension field through a ring
homomorphism `φ` (the canonical embedding `F → F::Extension`): every wire,
constant and hash component is mapped by `φ`. -/
def EvaluationVarsBase.embed {F K : Type} [Field F] [Field K]
    (vars : EvaluationVarsBase F) (φ : F →+* K) : EvaluationVars K :=
  ⟨vars.local_constants.map φ, fun n => φ (vars.local_wires n),
    vars.public_inputs_hash.map φ⟩

/-- Concrete prime field used to instantiate the abstract development. -/
instance : Fact (Nat.Prime 13) := ⟨by norm_num⟩

/-! ## Helper lemmas -/

theorem fullRow_access {F : Type} [Field F] (g : RandomAccessGate) (a : Nat)
    (lst : Nat → Nat → F) (cmp : Nat → F) :
    fullRow g a lst cmp 0 = (a : F) := by
  simp [fullRow]

theorem fullRow_cmp {F : Type} [Field F] (g : RandomAccessGate) (a : Nat)
    (lst : Nat → Nat → F) (cmp : Nat → F) {j : Nat} (hj : j < g.D) :
    fullRow g a lst cmp (1 + j) = cmp j := by
  have h0 : ¬ (1 + j = 0) := by omega
  have h1 : 1 + j < g.D + 1 := by omega
  simp [fullRow, h0, h1]

theorem fullRow_item {F : Type} [Field F] (g : RandomAccessGate) (a : Nat)
    (lst : Nat → Nat → F) (cmp : Nat → F) {i j : Nat}
    (hi : i < g.vec_size) (hj : j < g.D) :
    fullRow g a lst cmp ((i + 1) * g.D + 1 + j) = lst i j := by
  have h0 : ¬ ((i + 1) * g.D + 1 + j = 0) := by omega
  have hD1 : g.D ≤ (i + 1) * g.D := Nat.le_mul_of_pos_left _ (by omega)
  have h1 : ¬ ((i + 1) * g.D + 1 + j < g.D + 1) := by omega
  have h2 : (i + 1) * g.D + 1 + j < (g.vec_size + 1) * g.D + 1 := by
    have : (i + 2) * g.D ≤ (g.vec_size + 1) * g.D :=
      Nat.mul_le_mul_right _ (by omega)
    nlinarith
  have h3 : (i + 1) * g.D + 1 + j - 1 - g.D = g.D * i + j := by
    have : (i + 1) * g.D = g.D * i + g.D := by ring
    omega
  simp only [fullRow, if_neg h0, if_neg h1, if_pos h2, h3]
  rw [Nat.mul_add_div (by omega), Nat.mul_add_mod, Nat.div_eq_of_lt hj,
    Nat.mod_eq_of_lt hj, Nat.add_zero]

theorem fullRow_dummy {F : Type} [Field F] (g : RandomAccessGate) (a : Nat)
    (lst : Nat → Nat → F) (cmp : Nat → F) {i : Nat} (hi : i < g.vec_size) :
    fullRow g a lst cmp ((g.vec_size + 1) * g.D + 1 + i)
      = canonical_equality_dummy a i := by
  have hD1 : g.D ≤ (g.vec_size + 1) * g.D := Nat.le_mul_of_pos_left _ (by omega)
  have h0 : ¬ ((g.vec_size + 1) * g.D + 1 + i = 0) := by omega
  have h1 : ¬ ((g.vec_size + 1) * g.D + 1 + i < g.D + 1) := by omega
  have h2 : ¬ ((g.vec_size + 1) * g.D + 1 + i < (g.vec_size + 1) * g.D + 1) := by
    omega
  have h3 : (g.vec_size + 1) * g.D + 1 + i
      < (g.vec_size + 1) * g.D + 1 + g.vec_size := by omega
  simp only [fullRow, if_neg h0, if_neg h1, if_neg h2, if_pos h3,
    Nat.add_sub_cancel_left]

theorem fullRow_matches {F : Type} [Field F] (g : RandomAccessGate) (a : Nat)
    (lst : Nat → Nat → F) (cmp : Nat → F) {i : Nat} (hi : i < g.vec_size) :
    fullRow g a lst cmp ((g.vec_size + 1) * g.D + 1 + g.vec_size + i)
      = canonical_index_matches a i := by
  have hD1 : g.D ≤ (g.vec_size + 1) * g.D := Nat.le_mul_of_pos_left _ (by omega)
  have h0 : ¬ ((g.vec_size + 1) * g.D + 1 + g.vec_size + i = 0) := by omega
  have h1 : ¬ ((g.vec_size + 1) * g.D + 1 + g.vec_size + i < g.D + 1) := by omega
  have h2 : ¬ ((g.vec_size + 1) * g.D + 1 + g.vec_size + i
      < (g.vec_size + 1) * g.D + 1) := by omega
  have h3 : ¬ ((g.vec_size + 1) * g.D + 1 + g.vec_size + i
      < (g.vec_size + 1) * g.D + 1 + g.vec_size) := by omega
  simp only [fullRow, if_neg h0, if_neg h1, if_neg h2, if_neg h3,
    Nat.add_sub_cancel_left]

theorem get_local_ext_fullRow_cmp {F : Type} [Field F] (g : RandomAccessGate)
    (a : Nat) (lst : Nat → Nat → F) (cmp : Nat → F) (lc ph : List F) :
    (EvaluationVarsBase.mk lc (fullRow g a lst cmp) ph).get_local_ext
        g.wires_element_to_compare = (List.range g.D).map cmp := by
  simp only [EvaluationVarsBase.get_local_ext, RandomAccessGate.wires_element_to_compare,
    Nat.add_sub_cancel]
  exact List.map_congr_left (fun j hj => fullRow_cmp g a lst cmp (List.mem_range.1 hj))

theorem get_local_ext_fullRow_item {F : Type} [Field F] (g : RandomAccessGate)
    (a : Nat) (lst : Nat → Nat → F) (cmp : Nat → F) (lc ph : List F)
    {i : Nat} (hi : i < g.vec_size) :
    (EvaluationVarsBase.mk lc (fullRow g a lst cmp) ph).get_local_ext
        (g.wires_list_item i) = (List.range g.D).map (lst i) := by
  simp only [EvaluationVarsBase.get_local_ext, RandomAccessGate.wires_list_item,
    Nat.add_sub_cancel_left]
  exact List.map_congr_left
    (fun j hj => fullRow_item g a lst cmp hi (List.mem_range.1 hj))

theorem length_get_local_ext {F : Type} (vars : EvaluationVarsBase F)
    (r : WireRange) :
    (vars.get_local_ext r).length = r.stop - r.start := by
  simp [EvaluationVarsBase.get_local_ext]

theorem length_get_local_ext_algebra {K : Type} (vars : EvaluationVars K)
    (r : WireRange) :
    (vars.get_local_ext_algebra r).length = r.stop - r.start := by
  simp [EvaluationVars.get_local_ext_algebra]

theorem length_flatMap_const {A B : Type} (l : List A) (f : A → List B)
    (k : Nat) (hf : ∀ a ∈ l, (f a).length = k) :
    (l.flatMap f).length = l.length * k := by
  induction l with
  | nil => simp
  | cons a l ih =>
    simp only [List.flatMap_cons, List.length_append, List.length_cons]
    rw [hf a (List.mem_cons_self a l), ih (fun b hb => hf b (List.mem_cons_of_mem a hb))]
    ring

theorem length_eval_unfiltered_base {F : Type} [Field F]
    (g : RandomAccessGate) (vars : EvaluationVarsBase F) :
    (g.eval_unfiltered_base vars).length = g.vec_size * (2 + g.D) := by
  rw [RandomAccessGate.eval_unfiltered_base,
    length_flatMap_const _ _ (2 + g.D), List.length_range]
  intro i _
  simp [List.length_zipWith, length_get_local_ext,
    RandomAccessGate.wires_element_to_compare, RandomAccessGate.wires_list_item]
  omega

theorem length_eval_unfiltered {K : Type} [Field K]
    (g : RandomAccessGate) (vars : EvaluationVars K) :
    (g.eval_unfiltered vars).length = g.vec_size * (2 + g.D) := by
  rw [RandomAccessGate.eval_unfiltered,
    length_flatMap_const _ _ (2 + g.D), List.length_range]
  intro i _
  simp [List.length_zipWith, length_get_local_ext_algebra,
    RandomAccessGate.wires_element_to_compare, RandomAccessGate.wires_list_item]
  omega

theorem flatMap_range_drop_take {B : Type} (f : Nat → List B) (k : Nat)
    (hf : ∀ j, (f j).length = k) {n i : Nat} (hi : i < n) :
    (((List.range n).flatMap f).drop (i * k)).take k = f i := by
  have hsplit : List.range n = List.range' 0 i ++ List.range' i (n - i) := by
    have h1 : List.range' 0 i 1 ++ List.range' (0 + 1 * i) (n - i) 1
        = List.range' 0 ((n - i) + i) 1 := List.range'_append 0 i (n - i) 1
    rw [List.range_eq_range']
    have h2 : (n - i) + i = n := by omega
    rw [← h2]
    simpa using h1.symm
  rw [hsplit, List.flatMap_append]
  have hlen : ((List.range' 0 i).flatMap f).length = i * k := by
    rw [length_flatMap_const _ _ k (fun a _ => hf a), List.length_range']
  rw [← hlen, List.drop_left]
  have h3 : n - i = (n - i - 1) + 1 := by omega
  rw [h3, List.range'_succ, List.flatMap_cons, ← hf i, List.take_left]

/-- C1: for every `vec_size ≥ 1`, `D ≥ 1`, every list of `vec_size`
extension-field values, and every `access_index ∈ [0, vec_size)`, filling the
row with the access index, the list, `element_to_compare = list[access_index]`,
and the generator's canonical derived values makes `eval_unfiltered_base`
return the all-zero vector.  `hinj` states that the canonical embedding of
`[0, vec_size)` into the field is injective, which holds for the concrete
64-bit prime fields the gate is instantiated at. -/
theorem generator_completion_satisfies_constraints {F : Type} [Field F]
    (g : RandomAccessGate) (hv : 1 ≤ g.vec_size) (hD : 1 ≤ g.D)
    (a : Nat) (ha : a < g.vec_size)
    (lst : Nat → Nat → F) (cmp : Nat → F)
    (hcmp : ∀ j : Nat, j < g.D → cmp j = lst a j)
    (lc ph : List F)
    (hinj : ∀ i : Nat, i < g.vec_size → ∀ j : Nat, j < g.vec_size →
      (i : F) = (j : F) → i = j) :
    g.eval_unfiltered_base ⟨lc, fullRow g a lst cmp, ph⟩
      = List.replicate (g.vec_size * (2 + g.D)) 0 := by
  rw [List.eq_replicate_iff]
  refine ⟨length_eval_unfiltered_base g _, fun b hb => ?_⟩
  simp only [RandomAccessGate.eval_unfiltered_base, List.mem_flatMap,
    List.mem_range] at hb
  obtain ⟨i, hi, hbmem⟩ := hb
  simp only [RandomAccessGate.wires_access_index,
    RandomAccessGate.wire_equality_dummy_for_index,
    RandomAccessGate.wire_index_matches_for_index,
    RandomAccessGate.start_of_intermediate_wires,
    fullRow_access, get_local_ext_fullRow_cmp,
    get_local_ext_fullRow_item g a lst cmp lc ph hi,
    fullRow_dummy g a lst cmp hi, fullRow_matches g a lst cmp hi,
    List.zipWith_map, List.zipWith_same, List.map_map,
    List.mem_append, List.mem_cons, List.not_mem_nil, or_false,
    List.mem_map, Function.comp] at hbmem
  by_cases hia : i = a
  · subst hia
    rcases hbmem with (rfl | rfl) | ⟨j, hj, rfl⟩
    · simp [canonical_equality_dummy, canonical_index_matches]
    · simp [canonical_index_matches]
    · rw [hcmp j (List.mem_range.1 hj)]
      simp
  · have hd : (i : F) - (a : F) ≠ 0 :=
      sub_ne_zero_of_ne (fun hfi => hia (hinj i hi a ha hfi))
    rcases hbmem with (rfl | rfl) | ⟨j, hj, rfl⟩
    · simp [canonical_equality_dummy, canonical_index_matches, hia,
        mul_inv_cancel₀ hd]
    · simp [canonical_index_matches, hia]
    · simp [canonical_index_matches, hia]

/-- C2: with the same canonically completed row but `element_to_compare`
different from `list[access_index]` (they differ at coefficient `j`),
`eval_unfiltered_base` returns a vector with at least one non-zero entry. -/
theorem wrong_element_gives_nonzero_constraint {F : Type} [Field F]
    (g : RandomAccessGate) (hv : 1 ≤ g.vec_size) (hD : 1 ≤ g.D)
    (a : Nat) (ha : a < g.vec_size)
    (lst : Nat → Nat → F) (cmp : Nat → F) (lc ph : List F)
    (j : Nat) (hj : j < g.D) (hne : cmp j ≠ lst a j) :
    ∃ x ∈ g.eval_unfiltered_base ⟨lc, fullRow g a lst cmp, ph⟩, x ≠ 0 := by
  refine ⟨(lst a j - cmp j) * canonical_index_matches a a, ?_, ?_⟩
  · simp only [RandomAccessGate.eval_unfiltered_base, List.mem_flatMap,
      List.mem_range]
    refine ⟨a, ha, ?_⟩
    simp only [RandomAccessGate.wires_access_index,
      RandomAccessGate.wire_equality_dummy_for_index,
      RandomAccessGate.wire_index_matches_for_index,
      RandomAccessGate.start_of_intermediate_wires,
      fullRow_access, get_local_ext_fullRow_cmp,
      get_local_ext_fullRow_item g a lst cmp lc ph ha,
      fullRow_dummy g a lst cmp ha, fullRow_matches g a lst cmp ha,
      List.zipWith_map, List.zipWith_same, List.map_map,
      List.mem_append, List.mem_cons, List.not_mem_nil, or_false,
      List.mem_map, Function.comp]
    exact Or.inr ⟨j, List.mem_range.2 hj, rfl⟩
  · have h1 : canonical_index_matches (F := F) a a = 1 := by
      simp [canonical_index_matches]
    rw [h1, mul_one]
    exact sub_ne_zero_of_ne (Ne.symm hne)

/-- C3: embedding a base-field row assignment into the extension field through
the canonical ring embedding and calling `eval_unfiltered` yields exactly the
embedding of the vector returned by `eval_unfiltered_base`. -/
theorem eval_unfiltered_agrees_with_base {F K : Type} [Field F] [Field K]
    (φ : F →+* K) (g : RandomAccessGate) (vars : EvaluationVarsBase F) :
    g.eval_unfiltered (vars.embed φ) = (g.eval_unfiltered_base vars).map φ := by
  simp only [RandomAccessGate.eval_unfiltered,
    RandomAccessGate.eval_unfiltered_base, EvaluationVarsBase.embed,
    List.map_flatMap]
  apply List.flatMap_congr
  intro i _
  simp [EvaluationVars.get_local_ext_algebra, EvaluationVarsBase.get_local_ext,
    List.map_map, List.map_zipWith, List.zipWith_map, map_sub, map_mul,
    map_one, map_natCast, Function.comp]

theorem getD_map_range {B : Type} (f : Nat → B) (d : B) {v i : Nat}
    (hi : i < v) : ((List.range v).map f).getD i d = f i := by
  rw [List.getD_eq_getElem _ _ (by simpa using hi)]
  simp

theorem insertIdx_replicate {A : Type} (x y : A) (n m : Nat) :
    (List.replicate (n + m) y).insertIdx n x
      = List.replicate n y ++ x :: List.replicate m y := by
  induction n with
  | zero => simp
  | succ n ih =>
    have h1 : n + 1 + m = (n + m) + 1 := by omega
    rw [h1, List.replicate_succ, List.insertIdx_succ_cons, ih,
      List.replicate_succ]
    simp

theorem getD_replicate_zero {F : Type} [Field F] (m t : Nat) :
    (List.replicate m (0 : F)).getD t 0 = 0 := by
  rcases Nat.lt_or_ge t m with h | h
  · rw [List.getD_eq_getElem _ _ (by simpa using h)]
    simp
  · exact List.getD_eq_default _ _ (by simpa using h)

theorem getD_insertIdx_replicate {F : Type} [Field F] {v a i : Nat}
    (ha : a < v) (hi : i < v) :
    ((List.replicate (v - 1) (0 : F)).insertIdx a 1).getD i 0
      = canonical_index_matches a i := by
  have hsplit : v - 1 = a + (v - 1 - a) := by omega
  rw [hsplit, insertIdx_replicate]
  by_cases hia : i = a
  · subst hia
    rw [List.getD_append_right _ _ _ _ (by simp)]
    simp [canonical_index_matches]
  · rcases Nat.lt_or_ge i a with h | h
    · rw [List.getD_append _ _ _ _ (by simpa using h)]
      simp [canonical_index_matches, hia, getD_replicate_zero]
    · have h2 : a < i := by omega
      rw [List.getD_append_right _ _ _ _ (by simpa using h2.le)]
      have h3 : i - (List.replicate a (0 : F)).length = (i - a - 1) + 1 := by
        simp
        omega
      rw [h3, List.getD_cons_succ]
      simp [canonical_index_matches, hia, getD_replicate_zero]

/-- C4: on a witness whose access-index wire canonically represents
`a ∈ [0, vec_size)`, `run_once` succeeds and writes exactly the ordered list
of the `2·vec_size` derived wires — each `equality_dummy` and `index_matches`
wire exactly once and no other wire — with value `1` on both wires when
`i = access_index`, and `(i − access_index)⁻¹` resp. `0` otherwise; and the
output is a deterministic function of the declared dependency values. -/
theorem run_once_writes_canonical_derived_values {F : Type} [Field F]
    (to_canonical : F → Nat) (k : Nat) (g : RandomAccessGate)
    (witness : Wire → F) (a : Nat)
    (ha : to_canonical (witness ⟨k, 0⟩) = a) (hav : a < g.vec_size) :
    (RandomAccessGenerator.mk k g).run_once to_canonical witness
        = some (canonical_generated_values k g a) ∧
    (canonical_generated_values (F := F) k g a).length = 2 * g.vec_size ∧
    ((canonical_generated_values (F := F) k g a).map Prod.fst).Nodup ∧
    (∀ p ∈ canonical_generated_values (F := F) k g a, ∃ i < g.vec_size,
      p = (⟨k, g.wire_equality_dummy_for_index i⟩, canonical_equality_dummy a i)
      ∨ p = (⟨k, g.wire_index_matches_for_index i⟩, canonical_index_matches a i)) ∧
    (∀ witness2 : Wire → F,
      (∀ t ∈ (RandomAccessGenerator.mk k g).dependencies,
        witness2 ⟨t.gate, t.input⟩ = witness ⟨t.gate, t.input⟩) →
      (RandomAccessGenerator.mk k g).run_once to_canonical witness2
        = (RandomAccessGenerator.mk k g).run_once to_canonical witness) := by
  refine ⟨?_, ?_, ?_, ?_, ?_⟩
  · simp only [RandomAccessGenerator.run_once,
      RandomAccessGate.wires_access_index, ha, if_pos hav,
      Option.some.injEq]
    apply List.flatMap_congr
    intro i hi
    have hi2 : i < g.vec_size := List.mem_range.1 hi
    rw [getD_map_range _ _ hi2, getD_insertIdx_replicate hav hi2]
    rfl
  · have h := length_flatMap_const (List.range g.vec_size)
      (fun i =>
        [((⟨k, g.wire_equality_dummy_for_index i⟩ : Wire),
            canonical_equality_dummy (F := F) a i),
         (⟨k, g.wire_index_matches_for_index i⟩, canonical_index_matches a i)])
      2 (fun _ _ => rfl)
    rw [canonical_generated_values, h, List.length_range]
    ring
  · rw [canonical_generated_values, List.map_flatMap]
    simp only [List.map_cons, List.map_nil]
    rw [List.nodup_flatMap]
    constructor
    · intro x hx
      have hxv : x < g.vec_size := List.mem_range.1 hx
      simp [RandomAccessGate.wire_equality_dummy_for_index,
        RandomAccessGate.wire_index_matches_for_index,
        RandomAccessGate.start_of_intermediate_wires, Wire.mk.injEq]
      omega
    · refine List.Pairwise.imp_of_mem ?_ (List.pairwise_lt_range g.vec_size)
      intro x y hx hy hxy
      have hxv : x < g.vec_size := List.mem_range.1 hx
      have hyv : y < g.vec_size := List.mem_range.1 hy
      intro w hw hw2
      simp only [Function.onFun, List.mem_cons, List.not_mem_nil, or_false,
        RandomAccessGate.wire_equality_dummy_for_index,
        RandomAccessGate.wire_index_matches_for_index,
        RandomAccessGate.start_of_intermediate_wires] at hw hw2
      rcases hw with rfl | rfl <;> rcases hw2 with h | h <;>
        (rw [Wire.mk.injEq] at h; omega)
  · intro p hp
    simp only [canonical_generated_values, List.mem_flatMap,
      List.mem_range, List.mem_cons, List.not_mem_nil, or_false] at hp
    obtain ⟨i, hi, hmem⟩ := hp
    exact ⟨i, hi, hmem⟩
  · intro witness2 hagree
    have hmem : Target.mk k 0 ∈ (RandomAccessGenerator.mk k g).dependencies := by
      simp [RandomAccessGenerator.dependencies, Target.wire,
        RandomAccessGate.wires_access_index]
    have hacc : witness2 ⟨k, 0⟩ = witness ⟨k, 0⟩ := hagree _ hmem
    simp only [RandomAccessGenerator.run_once,
      RandomAccessGate.wires_access_index, hacc]

/-- C5: on a witness whose resolved access-index wire canonically represents
an integer outside `[0, vec_size)`, `run_once` hits the fatal assertion
(modelled as `none`) and produces no generated wire values. -/
theorem run_once_out_of_range_fails {F : Type} [Field F]
    (to_canonical : F → Nat) (k : Nat) (g : RandomAccessGate)
    (witness : Wire → F) (a : Nat)
    (ha : to_canonical (witness ⟨k, 0⟩) = a) (hav : g.vec_size ≤ a) :
    (RandomAccessGenerator.mk k g).run_once to_canonical witness = none := by
  simp only [RandomAccessGenerator.run_once,
    RandomAccessGate.wires_access_index, ha]
  rw [if_neg (by omega)]

/-- C6: for every `vec_size ≥ 1` and `D ≥ 1`, the shape metadata satisfies
`num_wires = (vec_size+1)·D + 1 + 2·vec_size`,
`num_constraints = vec_size·(2+D)`, and `degree = 2`. -/
theorem shape_metadata_formulas (g : RandomAccessGate)
    (hv : 1 ≤ g.vec_size) (hD : 1 ≤ g.D) :
    g.num_wires = (g.vec_size + 1) * g.D + 1 + 2 * g.vec_size ∧
    g.num_constraints = g.vec_size * (2 + g.D) ∧
    g.degree = 2 := by
  refine ⟨?_, rfl, rfl⟩
  rw [RandomAccessGate.num_wires, RandomAccessGate.wire_index_matches_for_index,
    RandomAccessGate.start_of_intermediate_wires]
  omega

/-- C7: for every `vec_size ≥ 1`, `D ≥ 1` and `i ∈ [0, vec_size)`, the
addressing functions return the closed-form slots of the layout. -/
theorem wire_layout_closed_forms (g : RandomAccessGate)
    (hv : 1 ≤ g.vec_size) (hD : 1 ≤ g.D) (i : Nat) (hi : i < g.vec_size) :
    g.wires_access_index = 0 ∧
    g.wires_element_to_compare = ⟨1, g.D + 1⟩ ∧
    g.wires_list_item i = ⟨(i + 1) * g.D + 1, (i + 2) * g.D + 1⟩ ∧
    g.wire_equality_dummy_for_index i = (g.vec_size + 1) * g.D + 1 + i ∧
    g.wire_index_matches_for_index i
      = (g.vec_size + 1) * g.D + 1 + g.vec_size + i := by
  refine ⟨rfl, rfl, ?_, rfl, rfl⟩
  rw [RandomAccessGate.wires_list_item, WireRange.mk.injEq]
  constructor
  · rfl
  · ring

/-- C8: for every shape and every row assignment, both evaluation functions
return exactly `num_constraints = vec_size·(2+D)` values, emitted in order:
for each `i`, the two scalar index-equality constraints followed by the `D`
coordinates of the value-equality constraint. -/
theorem eval_length_and_constraint_order {F K : Type} [Field F] [Field K]
    (g : RandomAccessGate) (varsb : EvaluationVarsBase F)
    (vars : EvaluationVars K) :
    (g.eval_unfiltered_base varsb).length = g.num_constraints ∧
    (g.eval_unfiltered vars).length = g.num_constraints ∧
    (∀ i, i < g.vec_size →
      ((g.eval_unfiltered_base varsb).drop (i * (2 + g.D))).take (2 + g.D)
        = [((i : F) - varsb.local_wires g.wires_access_index)
              * varsb.local_wires (g.wire_equality_dummy_for_index i)
            - (1 - varsb.local_wires (g.wire_index_matches_for_index i)),
           varsb.local_wires (g.wire_index_matches_for_index i)
              * ((i : F) - varsb.local_wires g.wires_access_index)]
          ++ ((List.zipWith (fun x y => x - y)
                (varsb.get_local_ext (g.wires_list_item i))
                (varsb.get_local_ext g.wires_element_to_compare)).map
              (fun x => x * varsb.local_wires (g.wire_index_matches_for_index i)))) ∧
    (∀ i, i < g.vec_size →
      ((g.eval_unfiltered vars).drop (i * (2 + g.D))).take (2 + g.D)
        = [((i : K) - vars.local_wires g.wires_access_index)
              * vars.local_wires (g.wire_equality_dummy_for_index i)
            - (1 - vars.local_wires (g.wire_index_matches_for_index i)),
           vars.local_wires (g.wire_index_matches_for_index i)
              * ((i : K) - vars.local_wires g.wires_access_index)]
          ++ ((List.zipWith (fun x y => x - y)
                (vars.get_local_ext_algebra (g.wires_list_item i))
                (vars.get_local_ext_algebra g.wires_element_to_compare)).map
              (fun x => x * vars.local_wires (g.wire_index_matches_for_index i)))) := by
  refine ⟨by rw [length_eval_unfiltered_base]; rfl,
    by rw [length_eval_unfiltered]; rfl, ?_, ?_⟩
  · intro i hi
    exact flatMap_range_drop_take _ (2 + g.D)
      (fun j => by
        simp [List.length_zipWith, length_get_local_ext,
          RandomAccessGate.wires_element_to_compare,
          RandomAccessGate.wires_list_item]
        omega) hi
  · intro i hi
    exact flatMap_range_drop_take _ (2 + g.D)
      (fun j => by
        simp [List.length_zipWith, length_get_local_ext_algebra,
          RandomAccessGate.wires_element_to_compare,
          RandomAccessGate.wires_list_item]
        omega) hi

theorem primary_slots_decomposition (v D : Nat) :
    [0] ++ (List.range D).map (fun j => 1 + j)
      ++ (List.range v).flatMap
          (fun i => (List.range D).map (fun j => (i + 1) * D + 1 + j))
    = List.range ((v + 1) * D + 1) := by
  have hmap : ∀ s n : Nat,
      (List.range n).map (fun j => s + j) = List.range' s n :=
    fun s n => (List.range'_eq_map_range s n).symm
  have h01 : ([0] : List Nat) ++ List.range' 1 D = List.range' 0 (D + 1) := by
    have h := List.range'_append 0 1 D 1
    simp only [Nat.one_mul, Nat.zero_add] at h
    have h0 : List.range' 0 1 = [0] := by simp
    rw [h0] at h
    exact h
  have hflat : ∀ w : Nat, List.range' 0 (D + 1)
      ++ (List.range w).flatMap (fun i => List.range' ((i + 1) * D + 1) D)
      = List.range' 0 ((w + 1) * D + 1) := by
    intro w
    induction w with
    | zero => simp
    | succ w ih =>
      rw [List.range_succ, List.flatMap_append, ← List.append_assoc, ih]
      simp only [List.flatMap_cons, List.flatMap_nil, List.append_nil]
      have h := List.range'_append 0 ((w + 1) * D + 1) D 1
      simp only [Nat.one_mul, Nat.zero_add] at h
      rw [h]
      congr 1
      ring
  rw [List.range_eq_range' ((v + 1) * D + 1), ← hflat v, ← h01]
  simp only [hmap, List.append_assoc]

/-- C9: the generator's dependencies are exactly the access-index wire, the
`D` element-to-compare wires, and the `D` wires of each of the `vec_size`
list items — `1 + D + vec_size·D` targets, all at the generator's own row,
with no derived wire among them.  Their slot numbers are precisely
`0, 1, …, (vec_size+1)·D`, in order. -/
theorem dependencies_are_exactly_primary_wires (k : Nat)
    (g : RandomAccessGate) :
    (RandomAccessGenerator.mk k g).dependencies.map Target.input
        = List.range ((g.vec_size + 1) * g.D + 1) ∧
    (∀ t ∈ (RandomAccessGenerator.mk k g).dependencies, t.gate = k) ∧
    (RandomAccessGenerator.mk k g).dependencies.length
        = 1 + g.D + g.vec_size * g.D ∧
    (∀ i, i < g.vec_size →
      Target.mk k (g.wire_equality_dummy_for_index i)
          ∉ (RandomAccessGenerator.mk k g).dependencies ∧
      Target.mk k (g.wire_index_matches_for_index i)
          ∉ (RandomAccessGenerator.mk k g).dependencies) := by
  have hA : (RandomAccessGenerator.mk k g).dependencies.map Target.input
      = List.range ((g.vec_size + 1) * g.D + 1) := by
    simp only [RandomAccessGenerator.dependencies, WireRange.toList,
      Target.wire, RandomAccessGate.wires_access_index,
      RandomAccessGate.wires_element_to_compare,
      RandomAccessGate.wires_list_item, List.map_append, List.map_map,
      List.map_flatMap, Nat.add_sub_cancel, Nat.add_sub_cancel_left,
      List.map_cons, List.map_nil, Function.comp]
    exact primary_slots_decomposition g.vec_size g.D
  have hnoderived : ∀ s : Nat, (g.vec_size + 1) * g.D + 1 ≤ s →
      Target.mk k s ∉ (RandomAccessGenerator.mk k g).dependencies := by
    intro s hs hmem
    have h1 : s ∈ (RandomAccessGenerator.mk k g).dependencies.map Target.input :=
      List.mem_map_of_mem Target.input hmem
    rw [hA, List.mem_range] at h1
    omega
  refine ⟨hA, ?_, ?_, ?_⟩
  · intro t ht
    simp only [RandomAccessGenerator.dependencies, WireRange.toList,
      Target.wire, List.mem_append, List.mem_flatMap, List.mem_map,
      List.mem_cons, List.not_mem_nil, or_false] at ht
    rcases ht with (rfl | ⟨j, _, rfl⟩) | ⟨i, _, j, _, rfl⟩ <;> rfl
  · have h1 : (RandomAccessGenerator.mk k g).dependencies.length
        = ((RandomAccessGenerator.mk k g).dependencies.map Target.input).length := by
      rw [List.length_map]
    rw [h1, hA, List.length_range]
    ring
  · intro i hi
    have hd : (g.vec_size + 1) * g.D + 1 ≤ g.wire_equality_dummy_for_index i := by
      rw [RandomAccessGate.wire_equality_dummy_for_index,
        RandomAccessGate.start_of_intermediate_wires]
      omega
    have hm : (g.vec_size + 1) * g.D + 1 ≤ g.wire_index_matches_for_index i := by
      rw [RandomAccessGate.wire_index_matches_for_index,
        RandomAccessGate.start_of_intermediate_wires]
      omega
    exact ⟨hnoderived _ hd, hnoderived _ hm⟩

/-- C10: the outputs of both evaluation functions depend only on the
`local_wires` component of the evaluation variables: two inputs that agree on
`local_wires` but have arbitrary `local_constants` and `public_inputs_hash`
produce identical constraint vectors. -/
theorem eval_depends_only_on_local_wires {F K : Type} [Field F] [Field K]
    (g : RandomAccessGate) (lw : Nat → F) (lc1 lc2 ph1 ph2 : List F)
    (lwK : Nat → K) (lcK1 lcK2 phK1 phK2 : List K) :
    g.eval_unfiltered_base ⟨lc1, lw, ph1⟩ = g.eval_unfiltered_base ⟨lc2, lw, ph2⟩ ∧
    g.eval_unfiltered ⟨lcK1, lwK, phK1⟩ = g.eval_unfiltered ⟨lcK2, lwK, phK2⟩ :=
  ⟨rfl, rfl⟩

/-- Witness for C1 at `vec_size = 3`, `D = 1`, `access_index = 1` over `ZMod 13`. -/
theorem generator_completion_satisfies_constraints_witness :
    (RandomAccessGate.mk 3 1).eval_unfiltered_base
        ⟨[], fullRow (RandomAccessGate.mk 3 1) 1
          (fun i j => ((i + j : Nat) : ZMod 13))
          (fun j => ((1 + j : Nat) : ZMod 13)), []⟩
      = List.replicate
          ((RandomAccessGate.mk 3 1).vec_size * (2 + (RandomAccessGate.mk 3 1).D)) 0 :=
  generator_completion_satisfies_constraints (RandomAccessGate.mk 3 1)
    (by decide) (by decide) 1 (by decide)
    (fun i j => ((i + j : Nat) : ZMod 13)) (fun j => ((1 + j : Nat) : ZMod 13))
    (fun _ _ => rfl) [] [] (by decide)

/-- Witness for C2 at `vec_size = 3`, `D = 1`, `access_index = 1` over `ZMod 13`. -/
theorem wrong_element_gives_nonzero_constraint_witness :
    ∃ x ∈ (RandomAccessGate.mk 3 1).eval_unfiltered_base
        ⟨[], fullRow (RandomAccessGate.mk 3 1) 1
          (fun i _ => ((i + 1 : Nat) : ZMod 13)) (fun _ => 0), []⟩, x ≠ 0 :=
  wrong_element_gives_nonzero_constraint (RandomAccessGate.mk 3 1)
    (by decide) (by decide) 1 (by decide)
    (fun i _ => ((i + 1 : Nat) : ZMod 13)) (fun _ => 0) [] []
    0 (by decide) (by decide)

/-- Witness for C4 at `vec_size = 3`, `D = 1`, row 7, all wires `1`, over `ZMod 13`. -/
theorem run_once_writes_canonical_derived_values_witness :
    (RandomAccessGenerator.mk 7 (RandomAccessGate.mk 3 1)).run_once ZMod.val
          (fun _ => (1 : ZMod 13))
        = some (canonical_generated_values 7 (RandomAccessGate.mk 3 1) 1) ∧
    (canonical_generated_values (F := ZMod 13) 7
        (RandomAccessGate.mk 3 1) 1).length
      = 2 * (RandomAccessGate.mk 3 1).vec_size ∧
    ((canonical_generated_values (F := ZMod 13) 7
        (RandomAccessGate.mk 3 1) 1).map Prod.fst).Nodup ∧
    (∀ p ∈ canonical_generated_values (F := ZMod 13) 7
        (RandomAccessGate.mk 3 1) 1,
      ∃ i < (RandomAccessGate.mk 3 1).vec_size,
        p = (⟨7, (RandomAccessGate.mk 3 1).wire_equality_dummy_for_index i⟩,
              canonical_equality_dummy 1 i)
        ∨ p = (⟨7, (RandomAccessGate.mk 3 1).wire_index_matches_for_index i⟩,
              canonical_index_matches 1 i)) ∧
    (∀ witness2 : Wire → ZMod 13,
      (∀ t ∈ (RandomAccessGenerator.mk 7 (RandomAccessGate.mk 3 1)).dependencies,
        witness2 ⟨t.gate, t.input⟩
          = (fun _ => (1 : ZMod 13)) (Wire.mk t.gate t.input)) →
      (RandomAccessGenerator.mk 7 (RandomAccessGate.mk 3 1)).run_once ZMod.val
          witness2
        = (RandomAccessGenerator.mk 7 (RandomAccessGate.mk 3 1)).run_once ZMod.val
          (fun _ => (1 : ZMod 13))) :=
  run_once_writes_canonical_derived_values ZMod.val 7 (RandomAccessGate.mk 3 1)
    (fun _ => (1 : ZMod 13)) 1 (by decide) (by decide)

/-- Witness for C5: access-index value `5` with `vec_size = 3` over `ZMod 13`. -/
theorem run_once_out_of_range_fails_witness :
    (RandomAccessGenerator.mk 2 (RandomAccessGate.mk 3 1)).run_once ZMod.val
        (fun _ => (5 : ZMod 13)) = none :=
  run_once_out_of_range_fails ZMod.val 2 (RandomAccessGate.mk 3 1)
    (fun _ => (5 : ZMod 13)) 5 (by decide) (by decide)

/-- Witness for C6 at `vec_size = 3`, `D = 4`. -/
theorem shape_metadata_formulas_witness :
    (RandomAccessGate.mk 3 4).num_wires
        = ((RandomAccessGate.mk 3 4).vec_size + 1) * (RandomAccessGate.mk 3 4).D
          + 1 + 2 * (RandomAccessGate.mk 3 4).vec_size ∧
    (RandomAccessGate.mk 3 4).num_constraints
        = (RandomAccessGate.mk 3 4).vec_size * (2 + (RandomAccessGate.mk 3 4).D) ∧
    (RandomAccessGate.mk 3 4).degree = 2 :=
  shape_metadata_formulas (RandomAccessGate.mk 3 4) (by decide) (by decide)

/-- Witness for C7 at `vec_size = 3`, `D = 4`, `i = 2`. -/
theorem wire_layout_closed_forms_witness :
    (RandomAccessGate.mk 3 4).wires_access_index = 0 ∧
    (RandomAccessGate.mk 3 4).wires_element_to_compare
        = ⟨1, (RandomAccessGate.mk 3 4).D + 1⟩ ∧
    (RandomAccessGate.mk 3 4).wires_list_item 2
        = ⟨(2 + 1) * (RandomAccessGate.mk 3 4).D + 1,
            (2 + 2) * (RandomAccessGate.mk 3 4).D + 1⟩ ∧
    (RandomAccessGate.mk 3 4).wire_equality_dummy_for_index 2
        = ((RandomAccessGate.mk 3 4).vec_size + 1) * (RandomAccessGate.mk 3 4).D
            + 1 + 2 ∧
    (RandomAccessGate.mk 3 4).wire_index_matches_for_index 2
        = ((RandomAccessGate.mk 3 4).vec_size + 1) * (RandomAccessGate.mk 3 4).D
            + 1 + (RandomAccessGate.mk 3 4).vec_size + 2 :=
  wire_layout_closed_forms (RandomAccessGate.mk 3 4) (by decide) (by decide)
    2 (by decide)
